import Mathlib

/-!
# Verification of the `mq-solver` polynomial / NTT core

Shallow embedding of `src/polynomial.rs` (the `Polynomial` type and its
operations) together with a model of the NTT engine (`forward`, `inverse`,
`Constants`) that `Polynomial::mul` calls.

Modelling conventions:
* The external arbitrary-precision signed integer `BigInt` is modelled as `Int`.
* A `Polynomial` is its coefficient vector: a `List Int`, most-significant
  coefficient first (big-endian), exactly as in the source.
* Rust operations that can panic (`unwrap` on a failed `position` search,
  out-of-range indexing/slicing) are modelled as `Option`-returning
  functions, `none` marking the panic.
-/

namespace MqSolver

/-- Model of Rust `usize::next_power_of_two`: the least power of two that is
`≥ n` (and `1` for `n = 0`).  Fuel-based structural recursion so that the
kernel can evaluate it. -/
def nextPow2Aux : Nat → Nat → Nat
  | 0, _ => 1
  | fuel+1, n => if n ≤ 1 then 1 else 2 * nextPow2Aux fuel ((n + 1) / 2)

/-- Rust `n.next_power_of_two()`. -/
def nextPow2 (n : Nat) : Nat := nextPow2Aux n n

/-- Model of Rust `Iterator::position`: index of the first element satisfying
`p`, or `none`. -/
def position (p : Int → Bool) : List Int → Option Nat
  | [] => none
  | a :: l => if p a then some 0 else (position p l).map (· + 1)

/-- `Polynomial::new` (src/polynomial.rs:19-34): if the length is not a power
of two (Rust test `n & (n - 1) == 0`), left-pad with zeros up to
`next_power_of_two(n)`; otherwise return the coefficients unchanged. -/
def new (coef : List Int) : List Int :=
  let n := coef.length
  if ¬ (n &&& (n - 1) = 0) then
    List.replicate (nextPow2 n - n) 0 ++ coef
  else coef

/-- `Polynomial::degree` (src/polynomial.rs:100-103):
`len - position_of_first_nonzero - 1`; the `unwrap` on an all-zero
coefficient vector is modelled as `none`. -/
def degree (x : List Int) : Option Nat :=
  (position (fun v => v != 0) x).map (fun s => x.length - s - 1)

/-- One accumulation step `out[e] += v` of `mul_brute`'s inner loop. -/
def accumAt (out : List Int) (e : Nat) (v : Int) : List Int :=
  out.set e (out.getD e 0 + v)

/-- `Polynomial::mul_brute` (src/polynomial.rs:36-51): nested loops over
`i < len a`, `j < len b` accumulating `a[i] * b[j]` into `out[i + j]`, the
output buffer starting as `len a + len b` zeros. -/
def mul_brute (x y : List Int) : List Int :=
  (List.range x.length).foldl (fun out i =>
    (List.range y.length).foldl (fun out j =>
      accumAt out (i + j) (x.getD i 0 * y.getD j 0)) out)
    (List.replicate (x.length + y.length) 0)

/-- The coefficient `∑ _{i+j=e} x[i]·y[j]` of the plain (big-endian index)
convolution; `mul_brute`'s buffer entry at raw index `e` is proved equal to
this. -/
def convAt (x y : List Int) (e : Nat) : Int :=
  ∑ i ∈ Finset.range x.length, ∑ j ∈ Finset.range y.length,
    if i + j = e then x.getD i 0 * y.getD j 0 else 0

/-- Modelled from the spec: the `Constants` produced by `ntt::working_modulus`
(src/ntt.rs, not part of the visible sources): the working modulus `N`, a
primitive `n`-th root of unity `g` modulo `N`, its modular inverse `ginv`,
and the modular inverse `ninv` of the transform length `n`. -/
structure Constants where
  N : Nat
  g : Nat
  ginv : Nat
  ninv : Nat
  deriving Repr, DecidableEq

/-- Modelled from the spec: `ntt::forward` (src/ntt.rs, not part of the
visible sources): evaluate the sequence, treated as a polynomial with the
entry at index `j` the coefficient of `t^j`, at the powers of the root `g`,
every output reduced to the canonical residue in `[0, N)`. -/
def forward (v : List Int) (c : Constants) : List Int :=
  (List.range v.length).map fun k =>
    (∑ j ∈ Finset.range v.length, v.getD j 0 * (c.g : Int) ^ (k * j)) % (c.N : Int)

/-- Modelled from the spec: `ntt::inverse` (src/ntt.rs, not part of the
visible sources): the same transform with the inverse root `ginv`, each
output scaled by `ninv` and reduced to the canonical residue in `[0, N)`. -/
def inverse (v : List Int) (c : Constants) : List Int :=
  (List.range v.length).map fun k =>
    ((c.ninv : Int) * ∑ j ∈ Finset.range v.length, v.getD j 0 * (c.ginv : Int) ^ (k * j)) %
      (c.N : Int)

/-- `Polynomial::mul` (src/polynomial.rs:53-82): record both degrees, pad both
operands on the left to `n = next_power_of_two(len a + len b)`, forward
transform both, multiply pointwise modulo `c.N`, inverse transform, and
return the slice of `deg a + deg b + 1` coefficients starting at the first
nonzero entry.  The `unwrap`s (all-zero operand, all-zero inverse output) and
the possible out-of-range slice are modelled as `none`. -/
def mul (x y : List Int) (c : Constants) : Option (List Int) := do
  let d1 ← degree x
  let d2 ← degree y
  let n := nextPow2 (x.length + y.length)
  let v1 := List.replicate (n - x.length) 0 ++ x
  let v2 := List.replicate (n - y.length) 0 ++ y
  let af := forward v1 c
  let bf := forward v2 c
  let m := (List.range n).map fun i => ((af.getD i 0) * (bf.getD i 0)) % (c.N : Int)
  let coef := inverse m c
  let start ← position (fun v => v != 0) coef
  if start + d1 + d2 < coef.length then
    pure ((coef.drop start).take (d1 + d2 + 1))
  else none

/-- The in-place downward loop of `Polynomial::diff` (src/polynomial.rs:86-88):
for `n` from `len - 1` down to `1`, `coef[n] = coef[n-1] * (len - n)`. -/
def diffLoop (x : List Int) : List Int :=
  ((List.range' 1 (x.length - 1)).reverse).foldl
    (fun c n => c.set n (c.getD (n - 1) 0 * ((x.length - n : Nat) : Int))) x

/-- `Polynomial::diff` (src/polynomial.rs:84-94): run the shift-and-scale
loop, zero the leading entry, and drop everything before the first nonzero
entry.  The panics (write `coef[0]` on an empty vector; `unwrap` when the
result is all zero) are modelled as `none`. -/
def diff (x : List Int) : Option (List Int) :=
  if x.length = 0 then none
  else
    let c1 := (diffLoop x).set 0 0
    (position (fun v => v != 0) c1).map fun s => c1.drop s

/-- The fused `zip_longest`/`map` of `impl Add for Polynomial`
(src/polynomial.rs:106-125), acting on the already-reversed coefficient
lists: `Both` adds, `Left`/`Right` keep the surviving element. -/
def zipLongestAdd : List Int → List Int → List Int
  | [], ys => ys
  | x :: xs, [] => x :: xs
  | x :: xs, y :: ys => (x + y) :: zipLongestAdd xs ys

/-- `impl Add for Polynomial` (src/polynomial.rs:106-125): reverse both
coefficient vectors, zip-longest them with addition, and reverse back. -/
def add (a b : List Int) : List Int := (zipLongestAdd a.reverse b.reverse).reverse

/-- `impl Neg for Polynomial` (src/polynomial.rs:135-143): negate every
coefficient. -/
def neg (a : List Int) : List Int := a.map fun v => -v

/-- `impl Sub for Polynomial` (src/polynomial.rs:127-133): `a + (-b)`. -/
def sub (a b : List Int) : List Int := add a (neg b)

/-- The formula asserted by C2, read literally: the product of the degree-`i`
coefficient of `x` and the degree-`j` coefficient of `y` (i.e. the entries of
the reversed, low-degree-first lists) accumulated at position `i + j` counted
from the low-degree end.  Stated from the spec sentence, to be compared with
the source's `mul_brute`. -/
def lowConvAt (x y : List Int) (k : Nat) : Int :=
  ∑ i ∈ Finset.range x.length, ∑ j ∈ Finset.range y.length,
    if i + j = k then x.reverse.getD i 0 * y.reverse.getD j 0 else 0

/-- Modelled from the spec: the guarantees `working_modulus` (src/ntt.rs, not
part of the visible sources) provides about the `Constants` it returns for a
transform length `n`: the modulus is prime, `g` is an `n`-th root of unity of
exact multiplicative order `n` modulo `N`, `ginv` is the modular inverse of
`g`, and `ninv` the modular inverse of the transform length `n`. -/
@[reducible] def ValidC (n : Nat) (c : Constants) : Prop :=
  c.N.Prime ∧ 0 < n ∧
  (c.g : ZMod c.N) ^ n = 1 ∧
  (∀ m, m < n → 0 < m → (c.g : ZMod c.N) ^ m ≠ 1) ∧
  (c.ginv : ZMod c.N) * (c.g : ZMod c.N) = 1 ∧
  (c.ninv : ZMod c.N) * (n : ZMod c.N) = 1

/-- The length-`n` cyclic convolution of two coefficient sequences at output
index `t`. -/
def cycConvAt (u v : List Int) (n t : Nat) : Int :=
  ∑ i ∈ Finset.range n, ∑ j ∈ Finset.range n,
    if (i + j) % n = t then u.getD i 0 * v.getD j 0 else 0

/-- The intermediate list `coef` built inside `Polynomial::mul`
(src/polynomial.rs:56-76): both operands padded on the left to
`n = next_power_of_two(len x + len y)`, forward-transformed, multiplied
pointwise modulo `c.N`, and inverse-transformed. -/
def mulCore (x y : List Int) (c : Constants) : List Int :=
  let n := nextPow2 (x.length + y.length)
  let af := forward (List.replicate (n - x.length) 0 ++ x) c
  let bf := forward (List.replicate (n - y.length) 0 ++ y) c
  inverse ((List.range n).map fun i => ((af.getD i 0) * (bf.getD i 0)) % (c.N : Int)) c

/-- Concrete constants for transform length `2`: modulus `3`, root `2` (of
order 2 mod 3), its inverse `2`, and `2⁻¹ = 2 (mod 3)`. -/
def cEx2 : Constants := ⟨3, 2, 2, 2⟩

/-- Concrete constants for transform length `4`: modulus `5`, root `2` (of
order 4 mod 5), its inverse `3`, and `4⁻¹ = 4 (mod 5)`. -/
def cEx4 : Constants := ⟨5, 2, 3, 4⟩

/-! ## General list helpers -/

theorem getD_map_range (f : Nat → Int) (n k : Nat) :
    ((List.range n).map f).getD k 0 = if k < n then f k else 0 := by
  rw [List.getD_eq_getElem?_getD, List.getElem?_map]
  by_cases h : k < n
  · rw [List.getElem?_range h]
    simp [h]
  · have : (List.range n)[k]? = none := by
      rw [List.getElem?_eq_none_iff]
      simpa using Nat.le_of_not_lt h
    rw [this]
    simp [h]

theorem length_map_range (f : Nat → Int) (n : Nat) :
    ((List.range n).map f).length = n := by simp

theorem getD_replicate_zero_append (p : Nat) (a : List Int) (i : Nat) :
    (List.replicate p (0 : Int) ++ a).getD i 0 =
      if i < p then 0 else a.getD (i - p) 0 := by
  rw [List.getD_eq_getElem?_getD, List.getElem?_append]
  by_cases h : i < p
  · simp [h, List.getElem?_replicate]
  · simp only [List.length_replicate, if_neg h]
    rw [List.getD_eq_getElem?_getD]

theorem getD_drop (l : List Int) (s t : Nat) :
    (l.drop s).getD t 0 = l.getD (s + t) 0 := by
  rw [List.getD_eq_getElem?_getD, List.getD_eq_getElem?_getD, List.getElem?_drop]

theorem getD_take (l : List Int) (m t : Nat) :
    (l.take m).getD t 0 = if t < m then l.getD t 0 else 0 := by
  rw [List.getD_eq_getElem?_getD, List.getElem?_take]
  by_cases h : t < m
  · simp [h, List.getD_eq_getElem?_getD]
  · simp [h]

theorem getD_eq_zero_of_le_length (l : List Int) (i : Nat) (h : l.length ≤ i) :
    l.getD i 0 = 0 := by
  rw [List.getD_eq_getElem?_getD]
  have : l[i]? = none := by
    rw [List.getElem?_eq_none_iff]
    exact h
  simp [this]

theorem ext_of_getD {a b : List Int} (hl : a.length = b.length)
    (h : ∀ i, a.getD i 0 = b.getD i 0) : a = b := by
  apply List.ext_get hl
  intro n h1 h2
  have hn := h n
  rw [List.getD_eq_getElem?_getD, List.getD_eq_getElem?_getD,
    List.getElem?_eq_getElem h1, List.getElem?_eq_getElem h2] at hn
  simpa using hn

theorem mem_of_getD_ne {l : List Int} {i : Nat} (h : l.getD i 0 ≠ 0) :
    l.getD i 0 ∈ l := by
  by_cases hi : i < l.length
  · rw [List.getD_eq_getElem?_getD, List.getElem?_eq_getElem hi]
    exact List.getElem_mem hi
  · exact absurd (getD_eq_zero_of_le_length l i (Nat.le_of_not_lt hi)) h

theorem getD_eq_of_mem_imp {l : List Int} {i : Nat} (hi : i < l.length) :
    l.getD i 0 ∈ l := by
  rw [List.getD_eq_getElem?_getD, List.getElem?_eq_getElem hi]
  exact List.getElem_mem hi

/-! ## `position` (Rust `Iterator::position`) -/

theorem position_eq_none_iff (p : Int → Bool) (l : List Int) :
    position p l = none ↔ ∀ a ∈ l, p a = false := by
  induction l with
  | nil => simp [position]
  | cons x xs ih =>
    by_cases h : p x
    · simp [position, h]
    · simp [position, h, Option.map_eq_none', ih]

theorem position_eq_some_iff (p : Int → Bool) (l : List Int) (i : Nat) :
    position p l = some i ↔
      i < l.length ∧ p (l.getD i 0) = true ∧ ∀ j < i, p (l.getD j 0) = false := by
  induction l generalizing i with
  | nil => simp [position]
  | cons x xs ih =>
    cases i with
    | zero =>
      by_cases h : p x
      · simp [position, h]
      · simp [position, h]
    | succ i =>
      by_cases h : p x
      · simp only [position, if_pos h]
        constructor
        · intro hc
          exact absurd hc (by simp)
        · rintro ⟨-, -, hall⟩
          have := hall 0 (Nat.succ_pos i)
          simp [h] at this
      · simp only [position, if_neg h, Option.map_eq_some']
        constructor
        · rintro ⟨j, hj, hji⟩
          have hji' : j = i := by omega
          subst hji'
          obtain ⟨h1, h2, h3⟩ := (ih j).mp hj
          refine ⟨by simpa using h1, by simpa using h2, ?_⟩
          intro k hk
          cases k with
          | zero => simpa using h
          | succ k => simpa using h3 k (by omega)
        · rintro ⟨h1, h2, h3⟩
          refine ⟨i, (ih i).mpr ⟨by simpa using h1, by simpa using h2, ?_⟩, rfl⟩
          intro k hk
          have := h3 (k + 1) (by omega)
          simpa using this

/-! ## Power-of-two arithmetic: the Rust test `n & (n-1) == 0` and
`next_power_of_two` -/

theorem land_self (n : Nat) : n &&& n = n :=
  Nat.eq_of_testBit_eq fun i => by rw [Nat.testBit_land, Bool.and_self]

theorem land_div_two (m n : Nat) : (m &&& n) / 2 = (m / 2) &&& (n / 2) :=
  Nat.eq_of_testBit_eq fun i => by
    rw [Nat.testBit_div_two, Nat.testBit_land, Nat.testBit_land,
      Nat.testBit_div_two, Nat.testBit_div_two]

theorem pow2_of_land_pred (n : Nat) : 0 < n → n &&& (n - 1) = 0 → ∃ k, n = 2 ^ k := by
  induction n using Nat.strong_induction_on with
  | _ n ih =>
    intro hn h
    rcases Nat.even_or_odd n with ⟨a, ha⟩ | ⟨a, ha⟩
    · have haa : 0 < a := by omega
      have hd : (n &&& (n - 1)) / 2 = a &&& (a - 1) := by
        rw [land_div_two]
        have e1 : n / 2 = a := by omega
        have e2 : (n - 1) / 2 = a - 1 := by omega
        rw [e1, e2]
      rw [h] at hd
      obtain ⟨k, hk⟩ := ih a (by omega) haa (by omega)
      exact ⟨k + 1, by rw [pow_succ]; omega⟩
    · rcases Nat.eq_zero_or_pos a with rfl | haa
      · exact ⟨0, by omega⟩
      · exfalso
        have hd : (n &&& (n - 1)) / 2 = a := by
          rw [land_div_two]
          have e1 : n / 2 = a := by omega
          have e2 : (n - 1) / 2 = a := by omega
          rw [e1, e2, land_self]
        rw [h] at hd
        omega

theorem land_pred_eq_zero_iff_pow2 (n : Nat) (hn : 0 < n) :
    n &&& (n - 1) = 0 ↔ ∃ k, n = 2 ^ k := by
  constructor
  · exact pow2_of_land_pred n hn
  · rintro ⟨k, rfl⟩
    apply Nat.eq_of_testBit_eq
    intro i
    rw [Nat.testBit_land, Nat.testBit_two_pow, Nat.testBit_two_pow_sub_one,
      Nat.zero_testBit]
    by_cases hik : k = i
    · subst hik
      simp
    · simp [hik]

theorem nextPow2Aux_spec : ∀ fuel n, n ≤ fuel →
    (∃ k, nextPow2Aux fuel n = 2 ^ k) ∧ n ≤ nextPow2Aux fuel n ∧
      ∀ m, n ≤ 2 ^ m → nextPow2Aux fuel n ≤ 2 ^ m := by
  intro fuel
  induction fuel with
  | zero =>
    intro n hn
    have : n = 0 := by omega
    subst this
    exact ⟨⟨0, rfl⟩, by simp [nextPow2Aux], fun m _ => Nat.one_le_two_pow⟩
  | succ fuel ih =>
    intro n hn
    by_cases h1 : n ≤ 1
    · simp only [nextPow2Aux, if_pos h1]
      exact ⟨⟨0, rfl⟩, h1, fun m _ => Nat.one_le_two_pow⟩
    · have h2 : 2 ≤ n := by omega
      have hrec : (n + 1) / 2 ≤ fuel := by omega
      obtain ⟨⟨k, hk⟩, hge, hmin⟩ := ih ((n + 1) / 2) hrec
      simp only [nextPow2Aux, if_neg h1]
      refine ⟨⟨k + 1, by rw [pow_succ]; omega⟩, by omega, ?_⟩
      intro m hm
      cases m with
      | zero =>
        rw [pow_zero] at hm
        omega
      | succ m' =>
        rw [pow_succ] at hm ⊢
        have hm' : (n + 1) / 2 ≤ 2 ^ m' := by omega
        have := hmin m' hm'
        omega

theorem nextPow2_pow2 (n : Nat) : ∃ k, nextPow2 n = 2 ^ k :=
  (nextPow2Aux_spec n n le_rfl).1

theorem le_nextPow2 (n : Nat) : n ≤ nextPow2 n :=
  (nextPow2Aux_spec n n le_rfl).2.1

theorem nextPow2_min (n m : Nat) (h : n ≤ 2 ^ m) : nextPow2 n ≤ 2 ^ m :=
  (nextPow2Aux_spec n n le_rfl).2.2 m h

theorem nextPow2_eq_self (n : Nat) (h : ∃ k, n = 2 ^ k) : nextPow2 n = n := by
  obtain ⟨k, rfl⟩ := h
  exact Nat.le_antisymm (nextPow2_min _ k le_rfl) (le_nextPow2 _)

theorem new_of_pow2_test {l : List Int} (h : l.length &&& (l.length - 1) = 0) :
    new l = l := by simp [new, h]

theorem new_of_not_pow2_test {l : List Int} (h : ¬l.length &&& (l.length - 1) = 0) :
    new l = List.replicate (nextPow2 l.length - l.length) 0 ++ l := by
  simp [new, h]

/-! ## Addition and negation -/

theorem zipLongestAdd_length : ∀ xs ys : List Int,
    (zipLongestAdd xs ys).length = max xs.length ys.length
  | [], ys => by simp [zipLongestAdd]
  | x :: xs, [] => by simp [zipLongestAdd]
  | x :: xs, y :: ys => by
    simp only [zipLongestAdd, List.length_cons, zipLongestAdd_length xs ys]
    omega

theorem zipLongestAdd_getD : ∀ (xs ys : List Int) (k : Nat),
    (zipLongestAdd xs ys).getD k 0 = xs.getD k 0 + ys.getD k 0
  | [], ys, k => by simp [zipLongestAdd]
  | x :: xs, [], k => by simp [zipLongestAdd]
  | x :: xs, y :: ys, 0 => by simp [zipLongestAdd]
  | x :: xs, y :: ys, k + 1 => by
    simp only [zipLongestAdd, List.getD_cons_succ]
    exact zipLongestAdd_getD xs ys k

theorem add_length (a b : List Int) :
    (add a b).length = max a.length b.length := by
  simp [add, zipLongestAdd_length]

theorem add_rev_getD (a b : List Int) (k : Nat) :
    (add a b).reverse.getD k 0 = a.reverse.getD k 0 + b.reverse.getD k 0 := by
  simp only [add, List.reverse_reverse]
  exact zipLongestAdd_getD a.reverse b.reverse k

theorem neg_length (a : List Int) : (neg a).length = a.length := by simp [neg]

theorem neg_getD : ∀ (a : List Int) (i : Nat), (neg a).getD i 0 = -(a.getD i 0)
  | [], i => by simp [neg]
  | x :: xs, 0 => by simp [neg]
  | x :: xs, i + 1 => by
    simp only [neg, List.map_cons, List.getD_cons_succ]
    exact neg_getD xs i

theorem zipLongestAdd_neg_self : ∀ a : List Int,
    zipLongestAdd a (neg a) = List.replicate a.length 0
  | [] => rfl
  | x :: xs => by
    simp only [neg, List.map_cons, zipLongestAdd, List.length_cons,
      List.replicate_succ, add_neg_cancel, List.cons.injEq, true_and]
    exact zipLongestAdd_neg_self xs

/-! ## Claim theorems: construction, addition, negation, degree -/

/-- C5 counterexample: the claim "for every input coefficient list the output
length of `new` equals `next_power_of_two(input length)`" fails on the empty
list: `new []` is `[]` of length `0`, while `next_power_of_two 0 = 1` (so the
output length is also not a power of two there). -/
theorem C5_counterexample :
    new ([] : List Int) = [] ∧
      (new ([] : List Int)).length ≠ nextPow2 ([] : List Int).length := by
  decide

/-- C5 (amended): for every nonempty input coefficient list, `new` left-pads
with zeros to length `next_power_of_two(input length)`, which is a power of
two and at least the input length; an input whose length is already a power
of two is returned unchanged; and `new` is idempotent. -/
theorem C5_new_spec (coef : List Int) (h : coef ≠ []) :
    (new coef).length = nextPow2 coef.length ∧
    (∃ k, (new coef).length = 2 ^ k) ∧
    coef.length ≤ (new coef).length ∧
    new coef = List.replicate (nextPow2 coef.length - coef.length) 0 ++ coef ∧
    ((∃ k, coef.length = 2 ^ k) → new coef = coef) ∧
    new (new coef) = new coef := by
  have hn : 0 < coef.length := List.length_pos.mpr h
  by_cases ht : coef.length &&& (coef.length - 1) = 0
  · have hp2 : ∃ k, coef.length = 2 ^ k := (land_pred_eq_zero_iff_pow2 _ hn).mp ht
    have hnew : new coef = coef := new_of_pow2_test ht
    have hnp : nextPow2 coef.length = coef.length := nextPow2_eq_self _ hp2
    obtain ⟨k, hk⟩ := hp2
    refine ⟨by rw [hnew, hnp], ⟨k, by rw [hnew, hk]⟩, by rw [hnew], ?_,
      fun _ => hnew, by rw [hnew, hnew]⟩
    rw [hnew, hnp, Nat.sub_self, List.replicate_zero, List.nil_append]
  · have hnew : new coef = List.replicate (nextPow2 coef.length - coef.length) 0 ++ coef :=
      new_of_not_pow2_test ht
    have hle : coef.length ≤ nextPow2 coef.length := le_nextPow2 _
    have hlen : (new coef).length = nextPow2 coef.length := by
      rw [hnew]
      simp only [List.length_append, List.length_replicate]
      omega
    obtain ⟨k, hk⟩ := nextPow2_pow2 coef.length
    have hlen2 : (new coef).length = 2 ^ k := by rw [hlen, hk]
    refine ⟨hlen, ⟨k, hlen2⟩, by omega, hnew, fun hp2 => absurd ?_ ht, ?_⟩
    · exact (land_pred_eq_zero_iff_pow2 _ hn).mpr hp2
    · have htest : (new coef).length &&& ((new coef).length - 1) = 0 :=
        (land_pred_eq_zero_iff_pow2 _ (by omega)).mpr ⟨k, hlen2⟩
      exact new_of_pow2_test htest

/-- C5 witness: the amended claim evaluated at the concrete input
`[1, 2, 3]`. -/
theorem C5_witness :
    (new [1, 2, 3]).length = nextPow2 ([1, 2, 3] : List Int).length ∧
    (∃ k, (new [1, 2, 3]).length = 2 ^ k) ∧
    ([1, 2, 3] : List Int).length ≤ (new [1, 2, 3]).length ∧
    new [1, 2, 3] =
      List.replicate (nextPow2 ([1, 2, 3] : List Int).length -
        ([1, 2, 3] : List Int).length) 0 ++ [1, 2, 3] ∧
    ((∃ k, ([1, 2, 3] : List Int).length = 2 ^ k) → new [1, 2, 3] = [1, 2, 3]) ∧
    new (new [1, 2, 3]) = new [1, 2, 3] :=
  C5_new_spec [1, 2, 3] (by decide)

/-- C6: polynomial addition aligns the operands at the low-degree (rightmost)
end — the reversed output at every index is the sum of the reversed inputs
there, the missing entries of the shorter operand counting as zero — the
result length is `max(len a, len b)`, and `new [1,2,3,4] + new [1,2]`
is `[1,2,4,6]`. -/
theorem C6_add_spec (a b : List Int) :
    (add a b).length = max a.length b.length ∧
    (∀ k, (add a b).reverse.getD k 0 = a.reverse.getD k 0 + b.reverse.getD k 0) ∧
    add (new [1, 2, 3, 4]) (new [1, 2]) = [1, 2, 4, 6] :=
  ⟨add_length a b, add_rev_getD a b, by decide⟩

/-- C9: `a + (-a)` is the all-zero polynomial of length `len a`, where `neg`
negates every coefficient and preserves the length. -/
theorem C9_add_neg_self (a : List Int) :
    add a (neg a) = List.replicate a.length 0 ∧
    (neg a).length = a.length ∧
    ∀ i, (neg a).getD i 0 = -(a.getD i 0) := by
  refine ⟨?_, neg_length a, neg_getD a⟩
  have hrev : (neg a).reverse = neg a.reverse := (List.map_reverse _ _).symm
  rw [add, hrev, zipLongestAdd_neg_self, List.length_reverse,
    List.reverse_replicate]

/-- C8: `degree` returns `length - (index of first nonzero coefficient) - 1`
whenever some coefficient is nonzero, and has no defined result (the
first-nonzero search misses) on the all-zero polynomial. -/
theorem C8_degree_spec (x : List Int) :
    ((∃ v ∈ x, v ≠ 0) →
      ∃ s, position (fun v => v != 0) x = some s ∧
        (∀ j < s, x.getD j 0 = 0) ∧ x.getD s 0 ≠ 0 ∧
        degree x = some (x.length - s - 1)) ∧
    ((∀ v ∈ x, v = 0) → degree x = none) := by
  constructor
  · intro hex
    have hne : position (fun v => v != 0) x ≠ none := by
      rw [Ne, position_eq_none_iff]
      push_neg
      obtain ⟨v, hv, hv0⟩ := hex
      exact ⟨v, hv, by simpa using hv0⟩
    obtain ⟨s, hs⟩ := Option.ne_none_iff_exists'.mp hne
    obtain ⟨h1, h2, h3⟩ := (position_eq_some_iff _ _ _).mp hs
    refine ⟨s, hs, fun j hj => by simpa using h3 j hj, by simpa using h2, ?_⟩
    simp [degree, hs]
  · intro hall
    have hnone : position (fun v => v != 0) x = none := by
      rw [position_eq_none_iff]
      intro v hv
      simpa using hall v hv
    simp [degree, hnone]

/-- C8 witness: the degree computation evaluated at `[0, 5]` (first nonzero at
index 1, degree 0) and at the all-zero polynomial `[0, 0]`. -/
theorem C8_witness :
    (∃ s, position (fun v => v != 0) [0, 5] = some s ∧
      (∀ j < s, ([0, 5] : List Int).getD j 0 = 0) ∧
      ([0, 5] : List Int).getD s 0 ≠ 0 ∧
      degree [0, 5] = some (([0, 5] : List Int).length - s - 1)) ∧
    degree [0, 0] = none :=
  ⟨(C8_degree_spec [0, 5]).1 (by decide), (C8_degree_spec [0, 0]).2 (by decide)⟩

/-! ## `mul_brute`: the accumulation loops compute the convolution at raw
(big-endian) index `i + j` -/

theorem accumAt_length (out : List Int) (e : Nat) (v : Int) :
    (accumAt out e v).length = out.length := by simp [accumAt]

theorem accumAt_getD (out : List Int) (e : Nat) (v : Int) (he : e < out.length)
    (i : Nat) :
    (accumAt out e v).getD i 0 = out.getD i 0 + if i = e then v else 0 := by
  simp only [accumAt]
  rw [List.getD_eq_getElem?_getD, List.getElem?_set]
  by_cases h : e = i
  · subst h
    simp [he, List.getD_eq_getElem?_getD]
  · rw [if_neg h, if_neg (by omega : ¬i = e), add_zero, List.getD_eq_getElem?_getD]

theorem foldl_accum_spec (f : Nat → Int) (i : Nat) :
    ∀ (J : Nat) (out : List Int), (∀ j < J, i + j < out.length) →
      ((List.range J).foldl (fun o j => accumAt o (i + j) (f j)) out).length
          = out.length ∧
        ∀ e, ((List.range J).foldl (fun o j => accumAt o (i + j) (f j)) out).getD e 0
          = out.getD e 0 + ∑ j ∈ Finset.range J, if i + j = e then f j else 0 := by
  intro J
  induction J with
  | zero => intro out _; simp
  | succ J ih =>
    intro out h
    rw [List.range_succ, List.foldl_append]
    simp only [List.foldl_cons, List.foldl_nil]
    obtain ⟨ihlen, ihget⟩ := ih out (fun j hj => h j (by omega))
    have hJlen :
        i + J < ((List.range J).foldl (fun o j => accumAt o (i + j) (f j)) out).length := by
      rw [ihlen]
      exact h J (by omega)
    refine ⟨by rw [accumAt_length, ihlen], fun e => ?_⟩
    rw [accumAt_getD _ _ _ hJlen, ihget, Finset.sum_range_succ]
    rw [add_assoc]
    congr 1
    by_cases he : i + J = e
    · rw [if_pos he, if_pos (by omega)]
    · rw [if_neg he, if_neg (by omega)]

theorem foldl2_accum_spec (g : Nat → Nat → Int) (J : Nat) :
    ∀ (I : Nat) (out : List Int), (∀ i < I, ∀ j < J, i + j < out.length) →
      ((List.range I).foldl
          (fun o i => (List.range J).foldl (fun o' j => accumAt o' (i + j) (g i j)) o)
          out).length = out.length ∧
        ∀ e, ((List.range I).foldl
            (fun o i => (List.range J).foldl (fun o' j => accumAt o' (i + j) (g i j)) o)
            out).getD e 0
          = out.getD e 0 +
            ∑ i ∈ Finset.range I, ∑ j ∈ Finset.range J,
              if i + j = e then g i j else 0 := by
  intro I
  induction I with
  | zero => intro out _; simp
  | succ I ih =>
    intro out h
    rw [List.range_succ, List.foldl_append]
    simp only [List.foldl_cons, List.foldl_nil]
    obtain ⟨ihlen, ihget⟩ := ih out (fun i hi j hj => h i (by omega) j hj)
    obtain ⟨slen, sget⟩ := foldl_accum_spec (g I) I J _
      (fun j hj => by rw [ihlen]; exact h I (by omega) j hj)
    refine ⟨by rw [slen, ihlen], fun e => ?_⟩
    rw [sget e, ihget e, Finset.sum_range_succ, add_assoc]

theorem getD_replicate (n : Nat) (i : Nat) :
    (List.replicate n (0 : Int)).getD i 0 = 0 := by
  rw [List.getD_eq_getElem?_getD, List.getElem?_replicate]
  by_cases h : i < n <;> simp [h]

theorem mul_brute_length (x y : List Int) :
    (mul_brute x y).length = x.length + y.length := by
  rw [mul_brute]
  rw [(foldl2_accum_spec (fun i j => x.getD i 0 * y.getD j 0) y.length x.length _
    (fun i hi j hj => by simp only [List.length_replicate]; omega)).1]
  simp

theorem mul_brute_getD (x y : List Int) (e : Nat) :
    (mul_brute x y).getD e 0 = convAt x y e := by
  rw [mul_brute]
  rw [(foldl2_accum_spec (fun i j => x.getD i 0 * y.getD j 0) y.length x.length _
    (fun i hi j hj => by simp only [List.length_replicate]; omega)).2 e]
  rw [getD_replicate, zero_add, convAt]

theorem convAt_eq_zero_of_le (x y : List Int) (e : Nat)
    (h : x.length + y.length - 1 ≤ e) : convAt x y e = 0 := by
  apply Finset.sum_eq_zero
  intro i hi
  apply Finset.sum_eq_zero
  intro j hj
  rw [Finset.mem_range] at hi hj
  rw [if_neg (by omega)]

/-- C2 counterexample: for `a = [1,2]` (i.e. `x + 2`) and `b = [3,4]`
(`3x + 4`), the output of `mul_brute` read low-degree-first has `0` at
position `0`, not the constant coefficient `2 · 4 = 8` that the claimed
low-degree-end convolution formula demands: the accumulation index `i + j` is
counted from the high-degree end, not the low-degree end. -/
theorem C2_counterexample :
    (mul_brute [1, 2] [3, 4]).reverse.getD 0 0 ≠ lowConvAt [1, 2] [3, 4] 0 := by
  decide

/-- C2 (amended): `mul_brute` computes the convolution with positions counted
from the high-degree (raw, big-endian) end: the output has length
`len a + len b`, its entry at raw index `e` is `∑ _{i+j=e} a[i]·b[j]` over the
raw big-endian indices, and consequently the final (lowest-degree) position is
always zero — the low-degree-first reading of the claim is off by one. -/
theorem C2_mul_brute_spec (x y : List Int) :
    (mul_brute x y).length = x.length + y.length ∧
    (∀ e, (mul_brute x y).getD e 0 = convAt x y e) ∧
    (mul_brute x y).getD (x.length + y.length - 1) 0 = 0 := by
  refine ⟨mul_brute_length x y, mul_brute_getD x y, ?_⟩
  rw [mul_brute_getD]
  exact convAt_eq_zero_of_le x y _ le_rfl

/-! ## `diff`: the downward in-place loop -/

theorem getD_set (l : List Int) (i : Nat) (a : Int) (j : Nat) :
    (l.set i a).getD j 0 = if i = j ∧ i < l.length then a else l.getD j 0 := by
  rw [List.getD_eq_getElem?_getD, List.getElem?_set]
  by_cases h1 : i = j
  · subst h1
    by_cases h2 : i < l.length
    · simp [h2]
    · rw [if_pos rfl, if_neg h2, if_neg (by tauto)]
      rw [getD_eq_zero_of_le_length l i (by omega)]
      rfl
  · rw [if_neg h1, if_neg (by tauto), List.getD_eq_getElem?_getD]

theorem diffLoop_foldl_spec (len : Nat) :
    ∀ (m : Nat) (c : List Int), m < c.length →
      (((List.range' 1 m).reverse).foldl
          (fun c n => c.set n (c.getD (n - 1) 0 * ((len - n : Nat) : Int))) c).length
        = c.length ∧
      ∀ i, (((List.range' 1 m).reverse).foldl
          (fun c n => c.set n (c.getD (n - 1) 0 * ((len - n : Nat) : Int))) c).getD i 0
        = if 1 ≤ i ∧ i ≤ m then c.getD (i - 1) 0 * ((len - i : Nat) : Int)
          else c.getD i 0 := by
  intro m
  induction m with
  | zero =>
    intro c _
    refine ⟨rfl, fun i => ?_⟩
    rw [if_neg (by omega)]
    rfl
  | succ m ih =>
    intro c hm
    have hconcat : List.range' 1 (m + 1) = List.range' 1 m ++ [m + 1] := by
      rw [List.range'_concat]
      simp [Nat.add_comm]
    rw [hconcat, List.reverse_append]
    simp only [List.reverse_cons, List.reverse_nil, List.nil_append,
      List.singleton_append, List.foldl_cons]
    set c' := c.set (m + 1) (c.getD (m + 1 - 1) 0 * ((len - (m + 1) : Nat) : Int))
      with hc'
    have hlenc' : c'.length = c.length := List.length_set _ _ _
    obtain ⟨ihlen, ihget⟩ := ih c' (by omega)
    have hgetc' : ∀ j, c'.getD j 0 =
        if j = m + 1 then c.getD m 0 * ((len - (m + 1) : Nat) : Int)
        else c.getD j 0 := by
      intro j
      rw [hc', getD_set]
      by_cases hj : j = m + 1
      · rw [if_pos hj, if_pos ⟨hj.symm, by omega⟩]
        norm_num
      · rw [if_neg hj, if_neg (by omega)]
    refine ⟨by rw [ihlen, hlenc'], fun i => ?_⟩
    rw [ihget i]
    by_cases h1 : 1 ≤ i ∧ i ≤ m
    · rw [if_pos h1, if_pos (by omega), hgetc', if_neg (by omega)]
    · rw [if_neg h1, hgetc']
      by_cases h2 : i = m + 1
      · rw [if_pos h2, if_pos (by omega), h2]
        norm_num
      · rw [if_neg h2, if_neg (by omega)]

theorem diffArr_getD (x : List Int) (hx : 0 < x.length) (i : Nat) :
    ((diffLoop x).set 0 0).getD i 0 =
      if i = 0 then 0
      else if i < x.length then x.getD (i - 1) 0 * ((x.length - i : Nat) : Int)
      else 0 := by
  obtain ⟨hlen, hget⟩ := diffLoop_foldl_spec x.length (x.length - 1) x (by omega)
  have hdl : diffLoop x = ((List.range' 1 (x.length - 1)).reverse).foldl
      (fun c n => c.set n (c.getD (n - 1) 0 * ((x.length - n : Nat) : Int))) x := rfl
  rw [getD_set]
  by_cases h0 : i = 0
  · rw [if_pos ⟨h0.symm, by rw [hdl, hlen]; omega⟩, if_pos h0]
  · rw [if_neg (by tauto), if_neg h0, hdl, hget i]
    by_cases h1 : i < x.length
    · rw [if_pos (by omega), if_pos h1]
    · rw [if_neg (by omega), if_neg h1]
      exact getD_eq_zero_of_le_length x i (by omega)

theorem diffArr_length (x : List Int) :
    ((diffLoop x).set 0 0).length = x.length := by
  rcases Nat.eq_zero_or_pos x.length with h | h
  · have : x = [] := List.length_eq_zero.mp h
    subst this
    rfl
  · obtain ⟨hlen, -⟩ := diffLoop_foldl_spec x.length (x.length - 1) x (by omega)
    rw [List.length_set]
    exact hlen

theorem eq_zero_of_mem_of_getD {l : List Int} (h : ∀ i, l.getD i 0 = 0) :
    ∀ v ∈ l, v = 0 := by
  intro v hv
  obtain ⟨⟨n, hn⟩, hget⟩ := List.mem_iff_get.mp hv
  have : l.get ⟨n, hn⟩ = l.getD n 0 := by
    rw [List.getD_eq_getElem?_getD, List.getElem?_eq_getElem hn]
    simp [List.get_eq_getElem]
  rw [← hget, this, h n]

/-- C10: `diff` panics (the trim's first-nonzero search fails) on every
polynomial whose coefficients at indices `0 .. len-2` are all zero — in
particular on every polynomial of length `≤ 1` — because after the
shift-and-scale loop every entry of the buffer is zero. -/
theorem C10_diff_panics (x : List Int) (h : ∀ i, i + 1 < x.length → x.getD i 0 = 0) :
    diff x = none := by
  by_cases hx : x.length = 0
  · rw [diff, if_pos hx]
  · have hx' : 0 < x.length := by omega
    rw [diff, if_neg hx]
    have hall : ∀ i, ((diffLoop x).set 0 0).getD i 0 = 0 := by
      intro i
      rw [diffArr_getD x hx' i]
      by_cases h0 : i = 0
      · rw [if_pos h0]
      · rw [if_neg h0]
        by_cases h1 : i < x.length
        · rw [if_pos h1, h (i - 1) (by omega), zero_mul]
        · rw [if_neg h1]
    have hnone : position (fun v => v != 0) ((diffLoop x).set 0 0) = none := by
      rw [position_eq_none_iff]
      intro v hv
      have := eq_zero_of_mem_of_getD hall v hv
      simp [this]
    simp only [hnone, Option.map_none']

/-- C10 witness: `diff` fails on the length-1 polynomial `[5]`. -/
theorem C10_witness : diff [5] = none :=
  C10_diff_panics [5] (fun i hi => absurd (show i + 1 < 1 from hi) (by omega))

/-- C7: on a polynomial of length `N > 0`, the `diff` buffer after the loop
has `new_coef[i] = old_coef[i-1] * (N - i)` for `1 ≤ i < N` and
`new_coef[0] = 0`; the returned value (when the search succeeds) drops
exactly the leading zero entries of that buffer; and
`diff [3,2,1] = some [6,2]`. -/
theorem C7_diff_spec (x : List Int) (hx : 0 < x.length) :
    ((diffLoop x).set 0 0).length = x.length ∧
    ((diffLoop x).set 0 0).getD 0 0 = 0 ∧
    (∀ i, 1 ≤ i → i < x.length →
      ((diffLoop x).set 0 0).getD i 0 = x.getD (i - 1) 0 * ((x.length - i : Nat) : Int)) ∧
    (∀ r, diff x = some r →
      ∃ s, position (fun v => v != 0) ((diffLoop x).set 0 0) = some s ∧
        (∀ j < s, ((diffLoop x).set 0 0).getD j 0 = 0) ∧
        ((diffLoop x).set 0 0).getD s 0 ≠ 0 ∧
        r = ((diffLoop x).set 0 0).drop s) ∧
    diff [3, 2, 1] = some [6, 2] := by
  refine ⟨diffArr_length x, by rw [diffArr_getD x hx 0]; simp, fun i h1 h2 => ?_, ?_,
    by decide⟩
  · rw [diffArr_getD x hx i, if_neg (by omega), if_pos h2]
  · intro r hr
    rw [diff, if_neg (by omega)] at hr
    obtain ⟨s, hs, hr⟩ := Option.map_eq_some'.mp hr
    obtain ⟨hs1, hs2, hs3⟩ := (position_eq_some_iff _ _ _).mp hs
    exact ⟨s, hs, fun j hj => by simpa using hs3 j hj, by simpa using hs2, hr.symm⟩

/-- C7 witness: the differentiation law evaluated at the concrete polynomial
`[3, 2, 1]`. -/
theorem C7_witness :
    ((diffLoop [3, 2, 1]).set 0 0).length = ([3, 2, 1] : List Int).length ∧
    ((diffLoop [3, 2, 1]).set 0 0).getD 0 0 = 0 ∧
    (∀ i, 1 ≤ i → i < ([3, 2, 1] : List Int).length →
      ((diffLoop [3, 2, 1]).set 0 0).getD i 0 =
        ([3, 2, 1] : List Int).getD (i - 1) 0 *
          ((([3, 2, 1] : List Int).length - i : Nat) : Int)) ∧
    (∀ r, diff [3, 2, 1] = some r →
      ∃ s, position (fun v => v != 0) ((diffLoop [3, 2, 1]).set 0 0) = some s ∧
        (∀ j < s, ((diffLoop [3, 2, 1]).set 0 0).getD j 0 = 0) ∧
        ((diffLoop [3, 2, 1]).set 0 0).getD s 0 ≠ 0 ∧
        r = ((diffLoop [3, 2, 1]).set 0 0).drop s) ∧
    diff [3, 2, 1] = some [6, 2] :=
  C7_diff_spec [3, 2, 1] (by decide)

/-! ## The transform engine: orthogonality of the root powers -/

theorem ValidC.g_unit {n : Nat} {c : Constants} (h : ValidC n c) :
    IsUnit (c.g : ZMod c.N) := by
  obtain ⟨-, hn, hg, -, -, -⟩ := h
  refine isUnit_of_mul_eq_one _ ((c.g : ZMod c.N) ^ (n - 1)) ?_
  rw [← pow_succ', Nat.sub_add_cancel hn]
  exact hg

theorem ValidC.pow_reduce {n : Nat} {c : Constants} (h : ValidC n c) (a : Nat) :
    (c.g : ZMod c.N) ^ a = (c.g : ZMod c.N) ^ (a % n) := by
  conv_lhs => rw [← Nat.div_add_mod a n]
  rw [pow_add, pow_mul, h.2.2.1, one_pow, one_mul]

theorem orth_base {n : Nat} {c : Constants} (h : ValidC n c) (p t : Nat)
    (hp : p < n) (ht : t < n) :
    ∑ k ∈ Finset.range n,
        (c.g : ZMod c.N) ^ (k * p) * (c.ginv : ZMod c.N) ^ (k * t)
      = if p = t then (n : ZMod c.N) else 0 := by
  haveI : Fact c.N.Prime := ⟨h.1⟩
  have hgu : IsUnit (c.g : ZMod c.N) := h.g_unit
  obtain ⟨hpr, hn, hg, hprim, hgi, hni⟩ := h
  have hginv : (c.ginv : ZMod c.N) = (c.g : ZMod c.N)⁻¹ :=
    eq_inv_of_mul_eq_one_left hgi
  have hterm : ∀ k, (c.g : ZMod c.N) ^ (k * p) * (c.ginv : ZMod c.N) ^ (k * t)
      = ((c.g : ZMod c.N) ^ p * ((c.g : ZMod c.N) ^ t)⁻¹) ^ k := by
    intro k
    rw [hginv, mul_pow, inv_pow, inv_pow, ← pow_mul, ← pow_mul,
      Nat.mul_comm k p, Nat.mul_comm k t]
  simp only [hterm]
  set g : ZMod c.N := (c.g : ZMod c.N) with hgdef
  by_cases hpt : p = t
  · subst hpt
    rw [if_pos rfl, mul_inv_cancel₀ (pow_ne_zero _ hgu.ne_zero)]
    simp
  · rw [if_neg hpt]
    have hu1 : g ^ p * (g ^ t)⁻¹ ≠ 1 := by
      intro heq
      have hgP : g ^ p = g ^ t :=
        (mul_inv_eq_one₀ (pow_ne_zero _ hgu.ne_zero)).mp heq
      rcases Nat.lt_or_ge p t with hlt | hge
      · have h1 : g ^ p * g ^ (t - p) = g ^ p * 1 := by
          rw [mul_one, ← pow_add, Nat.add_sub_cancel' hlt.le]
          exact hgP.symm
        have h2 : g ^ (t - p) = (1 : ZMod c.N) :=
          mul_left_cancel₀ (pow_ne_zero _ hgu.ne_zero) h1
        exact hprim (t - p) (by omega) (by omega) h2
      · have hlt : t < p := by omega
        have h1 : g ^ t * g ^ (p - t) = g ^ t * 1 := by
          rw [mul_one, ← pow_add, Nat.add_sub_cancel' hlt.le]
          exact hgP
        have h2 : g ^ (p - t) = (1 : ZMod c.N) :=
          mul_left_cancel₀ (pow_ne_zero _ hgu.ne_zero) h1
        exact hprim (p - t) (by omega) (by omega) h2
    have hun : (g ^ p * (g ^ t)⁻¹) ^ n = 1 := by
      rw [mul_pow, inv_pow, ← pow_mul, ← pow_mul, Nat.mul_comm p n,
        Nat.mul_comm t n, pow_mul, pow_mul, hg, one_pow, one_pow, inv_one,
        mul_one]
    have hgeom := geom_sum_mul (g ^ p * (g ^ t)⁻¹) n
    rw [hun, sub_self] at hgeom
    rcases mul_eq_zero.mp hgeom with h0 | h0
    · exact h0
    · exact absurd (sub_eq_zero.mp h0) hu1

theorem orth {n : Nat} {c : Constants} (h : ValidC n c) (p t : Nat) (ht : t < n) :
    ∑ k ∈ Finset.range n,
        (c.g : ZMod c.N) ^ (k * p) * (c.ginv : ZMod c.N) ^ (k * t)
      = if p % n = t then (n : ZMod c.N) else 0 := by
  have hred : ∀ k, (c.g : ZMod c.N) ^ (k * p) = (c.g : ZMod c.N) ^ (k * (p % n)) := by
    intro k
    rw [Nat.mul_comm k p, Nat.mul_comm k (p % n), pow_mul, pow_mul,
      ← h.pow_reduce p]
  rw [Finset.sum_congr rfl fun k _ => by rw [hred k]]
  exact orth_base h (p % n) t (Nat.mod_lt p h.2.1) ht

/-! ## Transform entries and the round-trip law -/

theorem forward_length (v : List Int) (c : Constants) :
    (forward v c).length = v.length := by simp [forward]

theorem inverse_length (v : List Int) (c : Constants) :
    (inverse v c).length = v.length := by simp [inverse]

theorem forward_getD (v : List Int) (c : Constants) (k : Nat) (hk : k < v.length) :
    (forward v c).getD k 0 =
      (∑ j ∈ Finset.range v.length, v.getD j 0 * (c.g : Int) ^ (k * j)) %
        (c.N : Int) := by
  rw [forward, getD_map_range, if_pos hk]

theorem inverse_getD (v : List Int) (c : Constants) (k : Nat) (hk : k < v.length) :
    (inverse v c).getD k 0 =
      ((c.ninv : Int) *
          ∑ j ∈ Finset.range v.length, v.getD j 0 * (c.ginv : Int) ^ (k * j)) %
        (c.N : Int) := by
  rw [inverse, getD_map_range, if_pos hk]

theorem int_eq_of_cast_eq {N : Nat} {a b : Int}
    (ha0 : 0 ≤ a) (ha : a < (N : Int)) (hb0 : 0 ≤ b) (hb : b < (N : Int))
    (h : ((a : Int) : ZMod N) = ((b : Int) : ZMod N)) : a = b := by
  have hmod : a % (N : Int) = b % (N : Int) := (ZMod.intCast_eq_intCast_iff a b N).mp h
  rwa [Int.emod_eq_of_lt ha0 ha, Int.emod_eq_of_lt hb0 hb] at hmod

theorem forward_getD_cast {n : Nat} (v : List Int) (c : Constants) (k : Nat)
    (hv : v.length = n) (hk : k < n) :
    (((forward v c).getD k 0 : Int) : ZMod c.N)
      = ∑ j ∈ Finset.range n, (v.getD j 0 : ZMod c.N) * (c.g : ZMod c.N) ^ (k * j) := by
  rw [forward_getD v c k (by omega), hv, ZMod.intCast_mod]
  push_cast
  rfl

theorem inverse_forward {n : Nat} {c : Constants} (h : ValidC n c) (x : List Int)
    (hlen : x.length = n) (hrange : ∀ v ∈ x, 0 ≤ v ∧ v < (c.N : Int)) :
    inverse (forward x c) c = x := by
  haveI : Fact c.N.Prime := ⟨h.1⟩
  have hN1 : 1 < c.N := h.1.one_lt
  have hN0 : (0 : Int) < (c.N : Int) := by exact_mod_cast Nat.lt_of_lt_of_le Nat.one_pos hN1.le
  have hflen : (forward x c).length = n := by rw [forward_length, hlen]
  apply ext_of_getD (by rw [inverse_length, hflen, hlen])
  intro t
  by_cases ht : t < n
  · have hentry : (inverse (forward x c) c).getD t 0
        = ((c.ninv : Int) *
            ∑ k ∈ Finset.range n, (forward x c).getD k 0 * (c.ginv : Int) ^ (t * k)) %
          (c.N : Int) := by
      rw [inverse_getD _ _ _ (by rw [hflen]; exact ht), hflen]
    have hcast : (((inverse (forward x c) c).getD t 0 : Int) : ZMod c.N)
        = ((x.getD t 0 : Int) : ZMod c.N) := by
      rw [hentry, ZMod.intCast_mod]
      push_cast
      have hFs : (∑ k ∈ Finset.range n,
            (((forward x c).getD k 0 : Int) : ZMod c.N) * (c.ginv : ZMod c.N) ^ (t * k))
          = ∑ k ∈ Finset.range n, (∑ j ∈ Finset.range n,
              (x.getD j 0 : ZMod c.N) * (c.g : ZMod c.N) ^ (k * j)) *
                (c.ginv : ZMod c.N) ^ (t * k) :=
        Finset.sum_congr rfl fun k hk => by
          rw [forward_getD_cast x c k hlen (Finset.mem_range.mp hk)]
      rw [hFs]
      have e12 : (∑ k ∈ Finset.range n, (∑ j ∈ Finset.range n,
            (x.getD j 0 : ZMod c.N) * (c.g : ZMod c.N) ^ (k * j)) *
              (c.ginv : ZMod c.N) ^ (t * k))
          = ∑ k ∈ Finset.range n, ∑ j ∈ Finset.range n,
              ((x.getD j 0 : ZMod c.N) * (c.g : ZMod c.N) ^ (k * j)) *
                (c.ginv : ZMod c.N) ^ (t * k) :=
        Finset.sum_congr rfl fun k _ => Finset.sum_mul _ _ _
      rw [e12, Finset.sum_comm]
      have e34 : ∀ j ∈ Finset.range n, (∑ k ∈ Finset.range n,
            ((x.getD j 0 : ZMod c.N) * (c.g : ZMod c.N) ^ (k * j)) *
              (c.ginv : ZMod c.N) ^ (t * k))
          = (x.getD j 0 : ZMod c.N) *
              (if j = t then (n : ZMod c.N) else 0) := by
        intro j hj
        have : (∑ k ∈ Finset.range n,
              ((x.getD j 0 : ZMod c.N) * (c.g : ZMod c.N) ^ (k * j)) *
                (c.ginv : ZMod c.N) ^ (t * k))
            = (x.getD j 0 : ZMod c.N) * ∑ k ∈ Finset.range n,
                (c.g : ZMod c.N) ^ (k * j) * (c.ginv : ZMod c.N) ^ (k * t) := by
          rw [Finset.mul_sum]
          exact Finset.sum_congr rfl fun k _ => by rw [mul_assoc, Nat.mul_comm t k]
        rw [this, orth_base h j t (Finset.mem_range.mp hj) ht]
      rw [Finset.sum_congr rfl e34]
      rw [Finset.sum_eq_single t (fun b _ hb => by rw [if_neg hb, mul_zero])
        (fun h' => absurd (Finset.mem_range.mpr ht) h')]
      rw [if_pos rfl, mul_comm ((x.getD t 0 : Int) : ZMod c.N) ((n : Nat) : ZMod c.N),
        ← mul_assoc, h.2.2.2.2.2, one_mul]
    have hrL : 0 ≤ (inverse (forward x c) c).getD t 0 ∧
        (inverse (forward x c) c).getD t 0 < (c.N : Int) := by
      rw [hentry]
      exact ⟨Int.emod_nonneg _ (by omega), Int.emod_lt_of_pos _ hN0⟩
    have hxt : 0 ≤ x.getD t 0 ∧ x.getD t 0 < (c.N : Int) :=
      hrange _ (getD_eq_of_mem_imp (by omega))
    exact int_eq_of_cast_eq hrL.1 hrL.2 hxt.1 hxt.2 hcast
  · have h1 : (inverse (forward x c) c).getD t 0 = 0 :=
      getD_eq_zero_of_le_length _ t (by rw [inverse_length, hflen]; omega)
    have h2 : x.getD t 0 = 0 := getD_eq_zero_of_le_length _ t (by omega)
    rw [h1, h2]

/-- C4: for every coefficient sequence `x` of power-of-two length `n` whose
entries are canonical residues, and valid `Constants` for that `n`,
`inverse (forward x c) c = x` exactly. -/
theorem C4_round_trip (n : Nat) (c : Constants) (_hp2 : ∃ k, n = 2 ^ k)
    (h : ValidC n c) (x : List Int) (hlen : x.length = n)
    (hrange : ∀ v ∈ x, 0 ≤ v ∧ v < (c.N : Int)) :
    inverse (forward x c) c = x :=
  inverse_forward h x hlen hrange

/-- C4 witness: the round trip evaluated for transform length `4` with
modulus `5`, root `2`, on the concrete sequence `[1, 2, 3, 4]`. -/
theorem C4_witness : inverse (forward [1, 2, 3, 4] cEx4) cEx4 = [1, 2, 3, 4] :=
  C4_round_trip 4 cEx4 ⟨2, rfl⟩ (by decide) [1, 2, 3, 4] rfl (by decide)

/-! ## The convolution property of the transform pair -/

theorem dft_conv_sum {n : Nat} {c : Constants} (h : ValidC n c)
    (X Y : Nat → ZMod c.N) (t : Nat) (ht : t < n) :
    ((c.ninv : Nat) : ZMod c.N) *
        ∑ k ∈ Finset.range n,
          (∑ i ∈ Finset.range n, X i * (c.g : ZMod c.N) ^ (k * i)) *
            (∑ j ∈ Finset.range n, Y j * (c.g : ZMod c.N) ^ (k * j)) *
            (c.ginv : ZMod c.N) ^ (t * k)
      = ∑ i ∈ Finset.range n, ∑ j ∈ Finset.range n,
          if (i + j) % n = t then X i * Y j else 0 := by
  have step1 : ∀ k, (∑ i ∈ Finset.range n, X i * (c.g : ZMod c.N) ^ (k * i)) *
        (∑ j ∈ Finset.range n, Y j * (c.g : ZMod c.N) ^ (k * j)) *
        (c.ginv : ZMod c.N) ^ (t * k)
      = ∑ i ∈ Finset.range n, ∑ j ∈ Finset.range n,
          (X i * Y j) *
            ((c.g : ZMod c.N) ^ (k * (i + j)) * (c.ginv : ZMod c.N) ^ (k * t)) := by
    intro k
    rw [Finset.sum_mul_sum, Finset.sum_mul]
    refine Finset.sum_congr rfl fun i _ => ?_
    rw [Finset.sum_mul]
    refine Finset.sum_congr rfl fun j _ => ?_
    rw [show (c.g : ZMod c.N) ^ (k * (i + j))
        = (c.g : ZMod c.N) ^ (k * i) * (c.g : ZMod c.N) ^ (k * j) from by
      rw [Nat.mul_add, pow_add], Nat.mul_comm t k]
    ring
  rw [Finset.sum_congr rfl fun k _ => step1 k]
  have step2 : (∑ k ∈ Finset.range n, ∑ i ∈ Finset.range n, ∑ j ∈ Finset.range n,
        (X i * Y j) *
          ((c.g : ZMod c.N) ^ (k * (i + j)) * (c.ginv : ZMod c.N) ^ (k * t)))
      = ∑ i ∈ Finset.range n, ∑ j ∈ Finset.range n, ∑ k ∈ Finset.range n,
          (X i * Y j) *
            ((c.g : ZMod c.N) ^ (k * (i + j)) * (c.ginv : ZMod c.N) ^ (k * t)) := by
    rw [Finset.sum_comm]
    exact Finset.sum_congr rfl fun i _ => Finset.sum_comm
  rw [step2]
  have step3 : ∀ i j, (∑ k ∈ Finset.range n,
        (X i * Y j) *
          ((c.g : ZMod c.N) ^ (k * (i + j)) * (c.ginv : ZMod c.N) ^ (k * t)))
      = (X i * Y j) * (if (i + j) % n = t then ((n : Nat) : ZMod c.N) else 0) := by
    intro i j
    rw [← Finset.mul_sum]
    congr 1
    exact orth h (i + j) t ht
  rw [Finset.sum_congr rfl fun i _ => Finset.sum_congr rfl fun j _ => step3 i j]
  simp only [Finset.mul_sum, mul_ite, mul_zero]
  refine Finset.sum_congr rfl fun i _ => Finset.sum_congr rfl fun j _ => ?_
  by_cases hc : (i + j) % n = t
  · rw [if_pos hc, if_pos hc, mul_comm (X i * Y j) ((n : Nat) : ZMod c.N),
      ← mul_assoc, h.2.2.2.2.2, one_mul]
  · rw [if_neg hc, if_neg hc]

theorem pointwise_cast {n : Nat} {c : Constants} (h : ValidC n c) (u v : List Int)
    (hu : u.length = n) (hv : v.length = n) (t : Nat) (ht : t < n) :
    (((inverse ((List.range n).map fun i =>
          ((forward u c).getD i 0 * (forward v c).getD i 0) % (c.N : Int)) c).getD t 0
        : Int) : ZMod c.N)
      = ((cycConvAt u v n t : Int) : ZMod c.N) := by
  haveI : Fact c.N.Prime := ⟨h.1⟩
  have hmlen : ((List.range n).map fun i =>
      ((forward u c).getD i 0 * (forward v c).getD i 0) % (c.N : Int)).length = n :=
    length_map_range _ _
  have hentry : (inverse ((List.range n).map fun i =>
        ((forward u c).getD i 0 * (forward v c).getD i 0) % (c.N : Int)) c).getD t 0
      = ((c.ninv : Int) *
          ∑ k ∈ Finset.range n,
            ((List.range n).map fun i =>
              ((forward u c).getD i 0 * (forward v c).getD i 0) % (c.N : Int)).getD k 0 *
              (c.ginv : Int) ^ (t * k)) % (c.N : Int) := by
    rw [inverse_getD _ _ _ (by rw [hmlen]; exact ht), hmlen]
  rw [hentry, ZMod.intCast_mod]
  push_cast
  have hmk : ∀ k ∈ Finset.range n,
      ((((List.range n).map fun i =>
          ((forward u c).getD i 0 * (forward v c).getD i 0) % (c.N : Int)).getD k 0
            : Int) : ZMod c.N) *
          (c.ginv : ZMod c.N) ^ (t * k)
      = (∑ i ∈ Finset.range n,
            ((u.getD i 0 : Int) : ZMod c.N) * (c.g : ZMod c.N) ^ (k * i)) *
          (∑ j ∈ Finset.range n,
            ((v.getD j 0 : Int) : ZMod c.N) * (c.g : ZMod c.N) ^ (k * j)) *
          (c.ginv : ZMod c.N) ^ (t * k) := by
    intro k hk
    rw [getD_map_range, if_pos (Finset.mem_range.mp hk), ZMod.intCast_mod,
      Int.cast_mul, forward_getD_cast u c k hu (Finset.mem_range.mp hk),
      forward_getD_cast v c k hv (Finset.mem_range.mp hk)]
  rw [Finset.sum_congr rfl hmk]
  rw [dft_conv_sum h (fun i => ((u.getD i 0 : Int) : ZMod c.N))
    (fun j => ((v.getD j 0 : Int) : ZMod c.N)) t ht]
  rw [cycConvAt, Int.cast_sum]
  refine Finset.sum_congr rfl fun i _ => ?_
  rw [Int.cast_sum]
  refine Finset.sum_congr rfl fun j _ => ?_
  rw [apply_ite (fun z : Int => ((z : Int) : ZMod c.N)), Int.cast_mul, Int.cast_zero]

theorem pointwise_exact {n : Nat} {c : Constants} (h : ValidC n c) (u v : List Int)
    (hu : u.length = n) (hv : v.length = n) (t : Nat) (ht : t < n)
    (h0 : 0 ≤ cycConvAt u v n t) (h1 : cycConvAt u v n t < (c.N : Int)) :
    (inverse ((List.range n).map fun i =>
        ((forward u c).getD i 0 * (forward v c).getD i 0) % (c.N : Int)) c).getD t 0
      = cycConvAt u v n t := by
  have hN0 : (0 : Int) < (c.N : Int) := by exact_mod_cast h.1.pos
  have hmlen : ((List.range n).map fun i =>
      ((forward u c).getD i 0 * (forward v c).getD i 0) % (c.N : Int)).length = n :=
    length_map_range _ _
  refine int_eq_of_cast_eq ?_ ?_ h0 h1 (pointwise_cast h u v hu hv t ht)
  · rw [inverse_getD _ _ _ (by rw [hmlen]; exact ht)]
    exact Int.emod_nonneg _ (by omega)
  · rw [inverse_getD _ _ _ (by rw [hmlen]; exact ht)]
    exact Int.emod_lt_of_pos _ hN0

theorem sum_shift_of_zero_front (n p : Nat) (hp : p ≤ n) (S : Nat → Int)
    (hS : ∀ i < p, S i = 0) :
    ∑ i ∈ Finset.range n, S i = ∑ i ∈ Finset.range (n - p), S (p + i) := by
  have hz : ∑ i ∈ Finset.Ico 0 p, S i = 0 :=
    Finset.sum_eq_zero fun i hi => hS i (Finset.mem_Ico.mp hi).2
  calc ∑ i ∈ Finset.range n, S i
      = ∑ i ∈ Finset.Ico 0 n, S i := by rw [Finset.range_eq_Ico]
    _ = ∑ i ∈ Finset.Ico 0 p, S i + ∑ i ∈ Finset.Ico p n, S i :=
        (Finset.sum_Ico_consecutive S (Nat.zero_le p) hp).symm
    _ = ∑ i ∈ Finset.range (n - p), S (p + i) := by
        rw [hz, zero_add, Finset.sum_Ico_eq_sum_range]

theorem cycConvAt_padded (a b : List Int) (n : Nat)
    (hn : a.length + b.length ≤ n) (t : Nat) (_ht : t < n) :
    cycConvAt (List.replicate (n - a.length) 0 ++ a)
        (List.replicate (n - b.length) 0 ++ b) n t
      = if n - a.length - b.length ≤ t
        then convAt a b (t - (n - a.length - b.length)) else 0 := by
  rw [cycConvAt]
  have hstep1 : ∑ i ∈ Finset.range n, ∑ j ∈ Finset.range n,
        (if (i + j) % n = t
          then (List.replicate (n - a.length) 0 ++ a).getD i 0 *
            (List.replicate (n - b.length) 0 ++ b).getD j 0 else 0)
      = ∑ i ∈ Finset.range (n - (n - a.length)), ∑ j ∈ Finset.range n,
        (if ((n - a.length + i) + j) % n = t
          then (List.replicate (n - a.length) 0 ++ a).getD (n - a.length + i) 0 *
            (List.replicate (n - b.length) 0 ++ b).getD j 0 else 0) :=
    sum_shift_of_zero_front n (n - a.length) (by omega) _ fun i hi =>
      Finset.sum_eq_zero fun j _ => by
        rw [getD_replicate_zero_append, if_pos hi, zero_mul, ite_self]
  rw [hstep1]
  have hla : n - (n - a.length) = a.length := by omega
  rw [hla]
  have hstep2 : ∀ i ∈ Finset.range a.length,
      (∑ j ∈ Finset.range n,
        (if ((n - a.length + i) + j) % n = t
          then (List.replicate (n - a.length) 0 ++ a).getD (n - a.length + i) 0 *
            (List.replicate (n - b.length) 0 ++ b).getD j 0 else 0))
      = ∑ j ∈ Finset.range (n - (n - b.length)),
        (if ((n - a.length + i) + (n - b.length + j)) % n = t
          then (List.replicate (n - a.length) 0 ++ a).getD (n - a.length + i) 0 *
            (List.replicate (n - b.length) 0 ++ b).getD (n - b.length + j) 0 else 0) :=
    fun i _ =>
      sum_shift_of_zero_front n (n - b.length) (by omega) _ fun j hj => by
        rw [getD_replicate_zero_append (n - b.length) b j, if_pos hj, mul_zero,
          ite_self]
  rw [Finset.sum_congr rfl hstep2, show n - (n - b.length) = b.length by omega]
  have hua : ∀ i < a.length,
      (List.replicate (n - a.length) 0 ++ a).getD (n - a.length + i) 0 = a.getD i 0 := by
    intro i hi
    rw [getD_replicate_zero_append, if_neg (by omega)]
    congr 1
    omega
  have hvb : ∀ j < b.length,
      (List.replicate (n - b.length) 0 ++ b).getD (n - b.length + j) 0 = b.getD j 0 := by
    intro j hj
    rw [getD_replicate_zero_append, if_neg (by omega)]
    congr 1
    omega
  have hmod : ∀ i j, i < a.length → j < b.length →
      ((n - a.length + i) + (n - b.length + j)) % n
        = n - a.length - b.length + (i + j) := by
    intro i j hi hj
    have heq : (n - a.length + i) + (n - b.length + j)
        = n + (n - a.length - b.length + (i + j)) := by omega
    rw [heq, Nat.add_mod_left, Nat.mod_eq_of_lt (by omega)]
  by_cases hq : n - a.length - b.length ≤ t
  · rw [if_pos hq, convAt]
    refine Finset.sum_congr rfl fun i hi => Finset.sum_congr rfl fun j hj => ?_
    rw [hua i (Finset.mem_range.mp hi), hvb j (Finset.mem_range.mp hj),
      hmod i j (Finset.mem_range.mp hi) (Finset.mem_range.mp hj)]
    refine if_congr ?_ rfl rfl
    omega
  · rw [if_neg hq]
    refine Finset.sum_eq_zero fun i hi => Finset.sum_eq_zero fun j hj => ?_
    rw [hmod i j (Finset.mem_range.mp hi) (Finset.mem_range.mp hj), if_neg (by omega)]

theorem convAt_eq_zero_of_lt_first (a b : List Int) (sa sb : Nat)
    (ha : ∀ j < sa, a.getD j 0 = 0) (hb : ∀ j < sb, b.getD j 0 = 0)
    (e : Nat) (he : e < sa + sb) : convAt a b e = 0 := by
  refine Finset.sum_eq_zero fun i _ => Finset.sum_eq_zero fun j _ => ?_
  by_cases hc : i + j = e
  · rw [if_pos hc]
    rcases Nat.lt_or_ge i sa with h' | h'
    · rw [ha i h', zero_mul]
    · rw [hb j (by omega), mul_zero]
  · rw [if_neg hc]

theorem convAt_first (a b : List Int) (sa sb : Nat)
    (hsa : sa < a.length) (hsb : sb < b.length)
    (ha : ∀ j < sa, a.getD j 0 = 0) (hb : ∀ j < sb, b.getD j 0 = 0) :
    convAt a b (sa + sb) = a.getD sa 0 * b.getD sb 0 := by
  rw [convAt]
  have houter : ∀ i ∈ Finset.range a.length, i ≠ sa →
      (∑ j ∈ Finset.range b.length,
        if i + j = sa + sb then a.getD i 0 * b.getD j 0 else 0) = 0 := by
    intro i _ hne
    refine Finset.sum_eq_zero fun j _ => ?_
    by_cases hc : i + j = sa + sb
    · rw [if_pos hc]
      rcases Nat.lt_or_ge i sa with h' | h'
      · rw [ha i h', zero_mul]
      · rw [hb j (by omega), mul_zero]
    · rw [if_neg hc]
  rw [Finset.sum_eq_single sa houter
    (fun habs => absurd (Finset.mem_range.mpr hsa) habs)]
  have hinner : ∀ j ∈ Finset.range b.length, j ≠ sb →
      (if sa + j = sa + sb then a.getD sa 0 * b.getD j 0 else 0) = 0 := by
    intro j _ hne
    rw [if_neg (by omega)]
  rw [Finset.sum_eq_single sb hinner
    (fun habs => absurd (Finset.mem_range.mpr hsb) habs), if_pos rfl]

theorem mulCore_length (a b : List Int) (c : Constants) :
    (mulCore a b c).length = nextPow2 (a.length + b.length) := by
  rw [mulCore, inverse_length, length_map_range]

theorem mulCore_getD {c : Constants} (a b : List Int)
    (h : ValidC (nextPow2 (a.length + b.length)) c)
    (hbound : ∀ e, e < a.length + b.length →
      0 ≤ convAt a b e ∧ convAt a b e < (c.N : Int))
    (t : Nat) (ht : t < nextPow2 (a.length + b.length)) :
    (mulCore a b c).getD t 0 =
      if nextPow2 (a.length + b.length) - a.length - b.length ≤ t
      then convAt a b (t - (nextPow2 (a.length + b.length) - a.length - b.length))
      else 0 := by
  have hn : a.length + b.length ≤ nextPow2 (a.length + b.length) := le_nextPow2 _
  have hN1 : 1 < c.N := h.1.one_lt
  have hu : (List.replicate (nextPow2 (a.length + b.length) - a.length) 0
      ++ a).length = nextPow2 (a.length + b.length) := by
    simp only [List.length_append, List.length_replicate]
    omega
  have hv : (List.replicate (nextPow2 (a.length + b.length) - b.length) 0
      ++ b).length = nextPow2 (a.length + b.length) := by
    simp only [List.length_append, List.length_replicate]
    omega
  have hpad := cycConvAt_padded a b (nextPow2 (a.length + b.length)) hn t ht
  have hcyc0 : 0 ≤ cycConvAt
      (List.replicate (nextPow2 (a.length + b.length) - a.length) 0 ++ a)
      (List.replicate (nextPow2 (a.length + b.length) - b.length) 0 ++ b)
      (nextPow2 (a.length + b.length)) t := by
    rw [hpad]
    by_cases hq : nextPow2 (a.length + b.length) - a.length - b.length ≤ t
    · rw [if_pos hq]
      exact (hbound _ (by omega)).1
    · rw [if_neg hq]
  have hcyc1 : cycConvAt
      (List.replicate (nextPow2 (a.length + b.length) - a.length) 0 ++ a)
      (List.replicate (nextPow2 (a.length + b.length) - b.length) 0 ++ b)
      (nextPow2 (a.length + b.length)) t < (c.N : Int) := by
    rw [hpad]
    by_cases hq : nextPow2 (a.length + b.length) - a.length - b.length ≤ t
    · rw [if_pos hq]
      exact (hbound _ (by omega)).2
    · rw [if_neg hq]
      exact_mod_cast Nat.lt_of_lt_of_le Nat.zero_lt_one hN1.le
  have hcore : (mulCore a b c).getD t 0 = cycConvAt
      (List.replicate (nextPow2 (a.length + b.length) - a.length) 0 ++ a)
      (List.replicate (nextPow2 (a.length + b.length) - b.length) 0 ++ b)
      (nextPow2 (a.length + b.length)) t := by
    rw [mulCore]
    exact pointwise_exact h _ _ hu hv t ht hcyc0 hcyc1
  rw [hcore, hpad]

theorem mul_eq (x y : List Int) (c : Constants) (d1 d2 : Nat)
    (hdx : degree x = some d1) (hdy : degree y = some d2) :
    mul x y c = (position (fun v => v != 0) (mulCore x y c)).bind fun start =>
      if start + d1 + d2 < (mulCore x y c).length
      then some (((mulCore x y c).drop start).take (d1 + d2 + 1)) else none := by
  simp only [mul, mulCore, hdx, hdy, Option.bind_eq_bind, Option.some_bind,
    Option.pure_def]

theorem mul_spec {c : Constants} (a b : List Int)
    (h : ValidC (nextPow2 (a.length + b.length)) c)
    (d1 d2 : Nat) (hda : degree a = some d1) (hdb : degree b = some d2)
    (hbound : ∀ e, e < a.length + b.length →
      0 ≤ convAt a b e ∧ convAt a b e < (c.N : Int)) :
    ∃ sa sb,
      position (fun v => v != 0) a = some sa ∧
      position (fun v => v != 0) b = some sb ∧
      d1 = a.length - sa - 1 ∧ d2 = b.length - sb - 1 ∧
      position (fun v => v != 0) (mulCore a b c)
        = some (nextPow2 (a.length + b.length) - a.length - b.length + sa + sb) ∧
      mul a b c = some (((mulCore a b c).drop
          (nextPow2 (a.length + b.length) - a.length - b.length + sa + sb)).take
          (d1 + d2 + 1)) ∧
      (((mulCore a b c).drop
          (nextPow2 (a.length + b.length) - a.length - b.length + sa + sb)).take
          (d1 + d2 + 1)).length = d1 + d2 + 1 ∧
      ∀ i, i ≤ d1 + d2 → (((mulCore a b c).drop
          (nextPow2 (a.length + b.length) - a.length - b.length + sa + sb)).take
          (d1 + d2 + 1)).getD i 0 = convAt a b (sa + sb + i) := by
  rw [degree] at hda hdb
  obtain ⟨sa, hposa, heqa⟩ := Option.map_eq_some'.mp hda
  obtain ⟨sb, hposb, heqb⟩ := Option.map_eq_some'.mp hdb
  obtain ⟨hsalt, hsane', hsazero'⟩ := (position_eq_some_iff _ _ _).mp hposa
  obtain ⟨hsblt, hsbne', hsbzero'⟩ := (position_eq_some_iff _ _ _).mp hposb
  have hane : a.getD sa 0 ≠ 0 := by simpa using hsane'
  have hbne : b.getD sb 0 ≠ 0 := by simpa using hsbne'
  have hazero : ∀ j < sa, a.getD j 0 = 0 := fun j hj => by simpa using hsazero' j hj
  have hbzero : ∀ j < sb, b.getD j 0 = 0 := fun j hj => by simpa using hsbzero' j hj
  have hnge : a.length + b.length ≤ nextPow2 (a.length + b.length) := le_nextPow2 _
  have hslt : nextPow2 (a.length + b.length) - a.length - b.length + sa + sb
      < nextPow2 (a.length + b.length) := by omega
  have hw := mulCore_getD a b h hbound
  have hwlen := mulCore_length a b c
  have hws : (mulCore a b c).getD
      (nextPow2 (a.length + b.length) - a.length - b.length + sa + sb) 0
      = a.getD sa 0 * b.getD sb 0 := by
    rw [hw _ hslt, if_pos (by omega),
      show nextPow2 (a.length + b.length) - a.length - b.length + sa + sb -
        (nextPow2 (a.length + b.length) - a.length - b.length) = sa + sb by omega]
    exact convAt_first a b sa sb hsalt hsblt hazero hbzero
  have hwzero : ∀ j < nextPow2 (a.length + b.length) - a.length - b.length + sa + sb,
      (mulCore a b c).getD j 0 = 0 := by
    intro j hj
    rw [hw j (by omega)]
    by_cases hq : nextPow2 (a.length + b.length) - a.length - b.length ≤ j
    · rw [if_pos hq]
      exact convAt_eq_zero_of_lt_first a b sa sb hazero hbzero _ (by omega)
    · rw [if_neg hq]
  have hpos : position (fun v => v != 0) (mulCore a b c)
      = some (nextPow2 (a.length + b.length) - a.length - b.length + sa + sb) := by
    rw [position_eq_some_iff]
    refine ⟨by omega, by rw [hws]; simpa using mul_ne_zero hane hbne, ?_⟩
    intro j hj
    rw [hwzero j hj]
    simp
  have hcond : nextPow2 (a.length + b.length) - a.length - b.length + sa + sb
      + d1 + d2 < (mulCore a b c).length := by
    rw [hwlen]
    omega
  have hmul : mul a b c = some (((mulCore a b c).drop
      (nextPow2 (a.length + b.length) - a.length - b.length + sa + sb)).take
      (d1 + d2 + 1)) := by
    rw [mul_eq a b c d1 d2 (by rw [degree, hposa, Option.map_some', heqa])
      (by rw [degree, hposb, Option.map_some', heqb]),
      hpos, Option.some_bind, if_pos hcond]
  have hlen : (((mulCore a b c).drop
      (nextPow2 (a.length + b.length) - a.length - b.length + sa + sb)).take
      (d1 + d2 + 1)).length = d1 + d2 + 1 := by
    rw [List.length_take, List.length_drop, hwlen]
    exact min_eq_left (by omega)
  refine ⟨sa, sb, hposa, hposb, heqa.symm, heqb.symm, hpos, hmul, hlen, ?_⟩
  · intro i hi
    rw [getD_take, if_pos (by omega), getD_drop, hw _ (by omega), if_pos (by omega),
      show nextPow2 (a.length + b.length) - a.length - b.length + sa + sb + i -
        (nextPow2 (a.length + b.length) - a.length - b.length) = sa + sb + i by omega]

theorem getD_append_gen (l1 l2 : List Int) (i : Nat) :
    (l1 ++ l2).getD i 0 =
      if i < l1.length then l1.getD i 0 else l2.getD (i - l1.length) 0 := by
  rw [List.getD_eq_getElem?_getD, List.getElem?_append]
  by_cases h : i < l1.length
  · simp [h, List.getD_eq_getElem?_getD]
  · simp only [if_neg h]
    rw [List.getD_eq_getElem?_getD]

/-- C3: for non-all-zero operands (their degrees `d1`, `d2` exist) and
constants that are valid for the internal transform length
`n = next_power_of_two(len a + len b)` and large enough for every true
convolution coefficient, `mul` succeeds and returns exactly `d1 + d2 + 1`
coefficients, namely the slice of the inverse-transformed pointwise product
(`mulCore`, built with that `n`) starting at its first nonzero entry. -/
theorem C3_mul_spec (a b : List Int) (c : Constants)
    (h : ValidC (nextPow2 (a.length + b.length)) c)
    (d1 d2 : Nat) (hda : degree a = some d1) (hdb : degree b = some d2)
    (hbound : ∀ e, e < a.length + b.length →
      0 ≤ convAt a b e ∧ convAt a b e < (c.N : Int)) :
    ∃ r s, mul a b c = some r ∧
      r.length = d1 + d2 + 1 ∧
      position (fun v => v != 0) (mulCore a b c) = some s ∧
      r = ((mulCore a b c).drop s).take (d1 + d2 + 1) := by
  obtain ⟨sa, sb, -, -, -, -, hpos, hmul, hlen, -⟩ :=
    mul_spec a b h d1 d2 hda hdb hbound
  exact ⟨_, _, hmul, hlen, hpos, rfl⟩

/-- C3 witness: the concrete multiplication `[1] * [2]` (degrees `0`, `0`)
with the valid length-2 constants `cEx2`. -/
theorem C3_witness :
    ∃ r s, mul [1] [2] cEx2 = some r ∧
      r.length = 0 + 0 + 1 ∧
      position (fun v => v != 0) (mulCore [1] [2] cEx2) = some s ∧
      r = ((mulCore [1] [2] cEx2).drop s).take (0 + 0 + 1) :=
  C3_mul_spec [1] [2] cEx2 (by decide) 0 0 (by decide) (by decide) (by decide)

/-- C1 counterexample: with constants that are valid for the transform length
and whose modulus `3` exceeds every true convolution coefficient of
`[1] * [1]` (the "sufficiently large bound" of the claim), `mul` returns the
trimmed product `[1]` while `mul_brute` returns `[1, 0]` — the two are never
equal, because `mul_brute` keeps `len a + len b` coefficients (its result is
`x` times the product) while `mul` trims to `deg a + deg b + 1`. -/
theorem C1_counterexample :
    ValidC (nextPow2 (([1] : List Int).length + ([1] : List Int).length)) cEx2 ∧
    (∀ e, e < ([1] : List Int).length + ([1] : List Int).length →
      0 ≤ convAt [1] [1] e ∧ convAt [1] [1] e < (cEx2.N : Int)) ∧
    mul [1] [1] cEx2 = some [1] ∧
    mul_brute [1] [1] = [1, 0] ∧
    mul [1] [1] cEx2 ≠ some (mul_brute [1] [1]) := by
  decide

/-- C1 (amended): under the same hypotheses as C3, `mul_brute a b` equals the
`mul` result shifted: `(len a + len b) - (d1 + d2 + 2)` leading zeros (the
leading zeros of both operands), then the `d1 + d2 + 1` coefficients of
`mul a b c`, then one trailing zero — i.e. `mul_brute` computes `x` times
the exact product, in a buffer of length `len a + len b`, rather than the
trimmed product `mul` returns. -/
theorem C1_mul_brute_shift (a b : List Int) (c : Constants)
    (h : ValidC (nextPow2 (a.length + b.length)) c)
    (d1 d2 : Nat) (hda : degree a = some d1) (hdb : degree b = some d2)
    (hbound : ∀ e, e < a.length + b.length →
      0 ≤ convAt a b e ∧ convAt a b e < (c.N : Int)) :
    ∃ r, mul a b c = some r ∧
      mul_brute a b =
        List.replicate (a.length + b.length - (d1 + d2 + 2)) 0 ++ (r ++ [0]) := by
  obtain ⟨sa, sb, hposa, hposb, hd1, hd2, hpos, hmul, hlen, hget⟩ :=
    mul_spec a b h d1 d2 hda hdb hbound
  obtain ⟨hsalt, -, hsazero'⟩ := (position_eq_some_iff _ _ _).mp hposa
  obtain ⟨hsblt, -, hsbzero'⟩ := (position_eq_some_iff _ _ _).mp hposb
  have hazero : ∀ j < sa, a.getD j 0 = 0 := fun j hj => by simpa using hsazero' j hj
  have hbzero : ∀ j < sb, b.getD j 0 = 0 := fun j hj => by simpa using hsbzero' j hj
  refine ⟨_, hmul, ?_⟩
  apply ext_of_getD
  · rw [mul_brute_length]
    simp only [List.length_append, List.length_replicate, hlen,
      List.length_singleton]
    omega
  · intro e
    rw [mul_brute_getD, getD_append_gen, getD_append_gen, List.length_replicate,
      hlen]
    by_cases he1 : e < a.length + b.length - (d1 + d2 + 2)
    · rw [if_pos he1, getD_replicate]
      exact convAt_eq_zero_of_lt_first a b sa sb hazero hbzero e (by omega)
    · rw [if_neg he1]
      by_cases he2 : e - (a.length + b.length - (d1 + d2 + 2)) < d1 + d2 + 1
      · rw [if_pos he2, hget (e - (a.length + b.length - (d1 + d2 + 2))) (by omega),
          show sa + sb + (e - (a.length + b.length - (d1 + d2 + 2))) = e by omega]
      · rw [if_neg he2]
        have hsing : ∀ k, ([0] : List Int).getD k 0 = 0 := by
          intro k
          cases k with
          | zero => rfl
          | succ k => rfl
        rw [hsing]
        exact convAt_eq_zero_of_le a b e (by omega)

/-- C1 witness: the amended relation evaluated on the concrete multiplication
`[1] * [2]` with the valid length-2 constants `cEx2`. -/
theorem C1_witness :
    ∃ r, mul [1] [2] cEx2 = some r ∧
      mul_brute [1] [2] =
        List.replicate (([1] : List Int).length + ([2] : List Int).length -
          (0 + 0 + 2)) 0 ++ (r ++ [0]) :=
  C1_mul_brute_shift [1] [2] cEx2 (by decide) 0 0 (by decide) (by decide) (by decide)


end MqSolver
